import Mathlib

/-!
Verification of the Morris one-at-a-time experiment generator
(`MorrisExperiment.cxx` of the otmorris library) against its
natural-language specification.

The embedding uses `ℚ` for the C++ `NumericalScalar` (double) so that all
arithmetic is exact and decidable, `List ℚ` for `NumericalPoint`,
`List (List ℚ)` for `NumericalSample` and `Except MorrisError` for the
C++ exception paths.  The spec distinguishes error kinds
(`InvalidConfiguration`, `DimensionMismatch`, `OutOfRangeInput`,
`IndexOutOfRange`); the code raises `InvalidArgumentException` with
distinct messages, which we model by the corresponding kind.

The external random source (OpenTURNS `RandomGenerator`,
`KPermutationsDistribution`, `UserDefined`) is modelled as an explicit
stream of draws passed to `generate`: a natural-number seed stands for a
uniform integer draw (reduced modulo the requested bound, so that every
value of `[0, n)` is attainable), a `Bool` stands for a draw from the
two-point direction distribution `{+1, -1}`, and a `List Nat` stands for
the realization of the permutation distribution.
-/

namespace OTMorris

/-- An OpenTURNS `Interval`: an axis-aligned box stored as one
`(lowerBound_k, upperBound_k)` pair per dimension (the OT object keeps
both bound vectors at the same dimension, which the pair list enforces
by construction). -/
structure IntervalQ where
  bounds : List (ℚ × ℚ)
  deriving DecidableEq, Repr

/-- `Interval(d)`: the unit box `[0,1]^d`, the OT default-constructed
interval of dimension `d` used by the two constructors that take no
explicit domain. -/
def IntervalQ.unit (d : Nat) : IntervalQ :=
  ⟨List.replicate d (0, 1)⟩

/-- `interval.getDimension()`. -/
def IntervalQ.dimension (I : IntervalQ) : Nat :=
  I.bounds.length

/-- `interval.getLowerBound()[k]`. -/
def IntervalQ.lbAt (I : IntervalQ) (k : Nat) : ℚ :=
  (I.bounds.getD k (0, 0)).1

/-- `interval.getUpperBound()[k]`. -/
def IntervalQ.ubAt (I : IntervalQ) (k : Nat) : ℚ :=
  (I.bounds.getD k (0, 0)).2

/-- `delta[k] = upperBound[k] - lowerBound[k]`. -/
def IntervalQ.deltaAt (I : IntervalQ) (k : Nat) : ℚ :=
  I.ubAt k - I.lbAt k

/-- The error kinds of the spec's error-handling design; the C++ code
raises `InvalidArgumentException` with a distinguishing message for each
of these situations. -/
inductive MorrisError where
  | invalidConfiguration
  | dimensionMismatch
  | outOfRangeInput
  | indexOutOfRange
  deriving DecidableEq, Repr

/-- The state of a `MorrisExperiment` object: the fields `interval_`,
`experiment_`, `step_` and `N_` of the C++ class (the three declared
matrix fields are never populated on the generation path and carry no
state). -/
structure MorrisExperiment where
  interval_ : IntervalQ
  experiment_ : List (List ℚ)
  step_ : List ℚ
  N_ : Nat
  deriving DecidableEq, Repr

/-- `sample.getDimension()` for a `NumericalSample` modelled as a list of
points (OT guarantees every point of a sample has the sample's
dimension; theorems that need this uniformity take it as a hypothesis). -/
def sampleDim (s : List (List ℚ)) : Nat :=
  (s.headD []).length

namespace MorrisExperiment

/-- The step-computation loop shared by the two levels-based
constructors: walks the levels in order, throws
`InvalidConfiguration` at the first `levels[k] <= 1`, otherwise
records `step_[k] = 1.0 / (levels[k] - 1.0)`. -/
def computeSteps : List Nat → Except MorrisError (List ℚ)
  | [] => .ok []
  | l :: ls =>
    if l ≤ 1 then .error .invalidConfiguration
    else
      match computeSteps ls with
      | .error e => .error e
      | .ok rest => .ok ((1 / ((l : ℚ) - 1)) :: rest)

/-- Constructor `MorrisExperiment(levels, N)`: p-level grid over the
implicit unit cube `Uniform(0,1)^d`. -/
def fromLevels (levels : List Nat) (N : Nat) : Except MorrisError MorrisExperiment :=
  match computeSteps levels with
  | .error e => .error e
  | .ok steps => .ok ⟨IntervalQ.unit levels.length, [], steps, N⟩

/-- Constructor `MorrisExperiment(levels, interval, N)`: p-level grid
with an explicit domain; the dimension check precedes the level check. -/
def fromLevelsInterval (levels : List Nat) (I : IntervalQ) (N : Nat) :
    Except MorrisError MorrisExperiment :=
  if levels.length ≠ I.dimension then .error .dimensionMismatch
  else
    match computeSteps levels with
    | .error e => .error e
    | .ok steps => .ok ⟨I, [], steps, N⟩

/-- The range check of the pool-only constructor: per column `k` of the
design, `xMin[k] < 0.0 || xMax[k] > 1.0` (a column minimum below 0 means
some entry is below 0, and symmetrically for the maximum). -/
def designOutOfUnitCube (s : List (List ℚ)) : Bool :=
  (List.range (sampleDim s)).any fun k =>
    s.any (fun pt => decide (pt.getD k 0 < 0)) || s.any (fun pt => decide (1 < pt.getD k 0))

/-- Constructor `MorrisExperiment(lhsDesign, N)`: base-point pool over
the implicit unit cube; `step_[k] = 0.5 / lhsDesign.getSize()`. -/
def fromLHS (lhsDesign : List (List ℚ)) (N : Nat) : Except MorrisError MorrisExperiment :=
  if designOutOfUnitCube lhsDesign then .error .outOfRangeInput
  else
    .ok ⟨IntervalQ.unit (sampleDim lhsDesign), lhsDesign,
      List.replicate (sampleDim lhsDesign) ((1 / 2 : ℚ) / (lhsDesign.length : ℚ)), N⟩

/-- The eager renormalization of the pool-plus-domain constructor:
`experiment_ = lhsDesign - lowerBound; experiment_ /= delta`, applied
coordinate-wise to one point. -/
def renormalizePoint (I : IntervalQ) (pt : List ℚ) : List ℚ :=
  (List.range I.dimension).map fun k => (pt.getD k 0 - I.lbAt k) / I.deltaAt k

/-- Constructor `MorrisExperiment(lhsDesign, interval, N)`: base-point
pool with an explicit domain; checks only the dimension match and then
stores the renormalized pool.  `step_[k] = 0.5 / lhsDesign.getSize()`. -/
def fromLHSInterval (lhsDesign : List (List ℚ)) (I : IntervalQ) (N : Nat) :
    Except MorrisError MorrisExperiment :=
  if sampleDim lhsDesign ≠ I.dimension then .error .dimensionMismatch
  else
    .ok ⟨I, lhsDesign.map (renormalizePoint I),
      List.replicate (sampleDim lhsDesign) ((1 / 2 : ℚ) / (lhsDesign.length : ℚ)), N⟩

/-- `getOrientationMatrixColumn(p)`: a vector of `dimension + 1` ones
with entries `0..p` set to `-1`; throws for `p >= dimension`. -/
def getOrientationMatrixColumn (st : MorrisExperiment) (p : Nat) :
    Except MorrisError (List ℚ) :=
  let dimension := st.step_.length
  if p ≥ dimension then .error .indexOutOfRange
  else .ok ((List.range (dimension + 1)).map fun i => if i ≤ p then (-1 : ℚ) else 1)

/-- The external uniform random source of one trajectory-generation run:
`perms k` is the realization of `KPermutationsDistribution(d, d)` drawn
for trajectory `k` (line 170 of the source), `dirs k p` the draw from the
two-point direction distribution `{+1, -1}` for trajectory `k` and
dimension `p`, and `ints k p` the seed of the `p`-th uniform integer draw
`RandomGenerator::IntegerGenerate` of trajectory `k`. -/
structure RandomStream where
  perms : Nat → List Nat
  dirs : Nat → Nat → Bool
  ints : Nat → Nat → Nat

/-- The value of a direction draw: the `UserDefined` distribution over
the two admissible directions `{+1.0, -1.0}`. -/
def directionValue (b : Bool) : ℚ :=
  if b then 1 else -1

/-- `RandomGenerator::IntegerGenerate(n)`: a uniform integer draw in
`[0, n)` from the external random source, modelled by reducing the
stream's seed `r` modulo `n` (so every value of `[0, n)` is attained by
some seed). -/
def IntegerGenerate (r n : Nat) : Nat :=
  r % n

/-- `generateXBaseFromLHS()`: draw an index uniformly in
`[0, experiment_.getSize())` and return that pool point unchanged. -/
def generateXBaseFromLHS (st : MorrisExperiment) (r : Nat) : List ℚ :=
  st.experiment_.getD (IntegerGenerate r st.experiment_.length) []

/-- `level = static_cast<UnsignedInteger>(1 + 1/step)`: truncation of the
positive value `1 + 1/step` toward zero, i.e. its floor. -/
def levelOf (step : ℚ) : Nat :=
  (⌊1 + 1 / step⌋).toNat

/-- `generateXBaseFromGrid()`: for each dimension `p` of the interval,
compute `level = 1 + 1/step_[p]` (truncated) and set
`xBase[p] = step_[p] * IntegerGenerate(level - 1)`. -/
def generateXBaseFromGrid (st : MorrisExperiment) (rs : Nat → Nat) : List ℚ :=
  (List.range st.interval_.dimension).map fun p =>
    st.step_.getD p 0 * (IntegerGenerate (rs p) (levelOf (st.step_.getD p 0) - 1) : ℚ)

/-- Monadic map over a list in the `Except` monad, used to model the
loops of `generate()` that contain a throwing call. -/
def exceptMap {α β : Type} (f : α → Except MorrisError β) :
    List α → Except MorrisError (List β)
  | [] => .ok []
  | a :: l =>
    match f a with
    | .error e => .error e
    | .ok b =>
      match exceptMap f l with
      | .error e => .error e
      | .ok rest => .ok (b :: rest)

/-- The base point of trajectory `k`: from the pool when one was
supplied (`experiment_.getSize() > 0`), otherwise from the grid. -/
def xBaseOf (st : MorrisExperiment) (rng : RandomStream) (k : Nat) : List ℚ :=
  if st.experiment_.length > 0 then generateXBaseFromLHS st (rng.ints k 0)
  else generateXBaseFromGrid st (rng.ints k)

/-- `generate()`: for each of the `N_` trajectories, obtain a base
point, draw the permutation realization (line 170; the loop below never
reads it, exactly as in the source) and the direction draws, and fill
entry `(k*(dimension+1) + i, p)` of the output with
`delta[p] * ((orientationMatrixColumn[i]*directions[p] + 1.0)*0.5*step_[p] + xBase[p]) + lowerBound[p]`.
The output sample is reconstructed row by row. -/
def generate (st : MorrisExperiment) (rng : RandomStream) :
    Except MorrisError (List (List ℚ)) :=
  let dimension := st.step_.length
  match exceptMap (fun k =>
      let xBase := xBaseOf st rng k
      let _permutations := rng.perms k
      exceptMap (fun i =>
        exceptMap (fun p =>
          match getOrientationMatrixColumn st p with
          | .error e => .error e
          | .ok orientationMatrixColumn =>
            .ok (st.interval_.deltaAt p *
              ((orientationMatrixColumn.getD i 0 * directionValue (rng.dirs k p) + 1) *
                (1 / 2) * st.step_.getD p 0 + xBase.getD p 0) + st.interval_.lbAt p))
          (List.range dimension))
        (List.range (dimension + 1)))
      (List.range st.N_) with
  | .error e => .error e
  | .ok trajectories => .ok trajectories.flatten

/-- The value written by `generate()` at trajectory row `i`, column `p`
(pure form of the assignment at line 180 of the source, with the
orientation-column entry inlined). -/
def morrisEntry (st : MorrisExperiment) (xBase : List ℚ) (dir : Nat → Bool)
    (i p : Nat) : ℚ :=
  st.interval_.deltaAt p *
    (((if i ≤ p then (-1 : ℚ) else 1) * directionValue (dir p) + 1) *
      (1 / 2) * st.step_.getD p 0 + xBase.getD p 0) + st.interval_.lbAt p

/-- The `i`-th point of the `k`-th trajectory. -/
def morrisPoint (st : MorrisExperiment) (rng : RandomStream) (k i : Nat) : List ℚ :=
  (List.range st.step_.length).map fun p =>
    morrisEntry st (xBaseOf st rng k) (rng.dirs k) i p

/-- The full generated design as a pure value: the `N_` trajectories in
generation order, each contributing its `dimension + 1` points in walk
order. -/
def morrisSample (st : MorrisExperiment) (rng : RandomStream) : List (List ℚ) :=
  ((List.range st.N_).map fun k =>
    (List.range (st.step_.length + 1)).map fun i => morrisPoint st rng k i).flatten

end MorrisExperiment

/-- A generator state reachable by a successful run of one of the four
public constructors. -/
def Constructed (st : MorrisExperiment) : Prop :=
  (∃ levels N, MorrisExperiment.fromLevels levels N = .ok st) ∨
  (∃ levels I N, MorrisExperiment.fromLevelsInterval levels I N = .ok st) ∨
  (∃ s N, MorrisExperiment.fromLHS s N = .ok st) ∨
  (∃ s I N, MorrisExperiment.fromLHSInterval s I N = .ok st)

namespace MorrisExperiment

theorem exceptMap_ok {α β : Type} (f : α → Except MorrisError β) (g : α → β)
    (l : List α) (h : ∀ a ∈ l, f a = .ok (g a)) :
    exceptMap f l = .ok (l.map g) := by
  induction l with
  | nil => rfl
  | cons a l ih =>
    simp only [exceptMap, h a (List.mem_cons_self a l), List.map_cons]
    rw [ih fun b hb => h b (List.mem_cons_of_mem a hb)]

theorem getD_range_map {β : Type} (f : Nat → β) (n i : Nat) (d : β) (h : i < n) :
    ((List.range n).map f).getD i d = f i := by
  rw [List.getD_eq_getElem?_getD]
  simp [List.getElem?_map, List.getElem?_range, h]

theorem getD_mem {β : Type} (l : List β) (n : Nat) (h : n < l.length) (d : β) :
    l.getD n d ∈ l := by
  rw [List.getD_eq_getElem?_getD]
  simp [List.getElem?_eq_getElem h]

theorem getOrientationMatrixColumn_ok (st : MorrisExperiment) (p : Nat)
    (hp : p < st.step_.length) :
    st.getOrientationMatrixColumn p =
      .ok ((List.range (st.step_.length + 1)).map fun i =>
        if i ≤ p then (-1 : ℚ) else 1) := by
  simp [getOrientationMatrixColumn, Nat.not_le.mpr hp]

theorem generate_eq (st : MorrisExperiment) (rng : RandomStream) :
    st.generate rng = .ok (st.morrisSample rng) := by
  dsimp only [generate, morrisSample]
  rw [exceptMap_ok _ (fun k => (List.range (st.step_.length + 1)).map fun i =>
    st.morrisPoint rng k i)]
  intro k _
  rw [exceptMap_ok _ (fun i => st.morrisPoint rng k i)]
  intro i hi
  unfold morrisPoint
  rw [exceptMap_ok _ (fun p => morrisEntry st (st.xBaseOf rng k) (rng.dirs k) i p)]
  intro p hp
  rw [getOrientationMatrixColumn_ok st p (List.mem_range.mp hp)]
  have hcol : ((List.range (st.step_.length + 1)).map fun j =>
      if j ≤ p then (-1 : ℚ) else 1).getD i 0 = if i ≤ p then (-1 : ℚ) else 1 :=
    getD_range_map _ _ _ _ (List.mem_range.mp hi)
  dsimp only
  rw [hcol]
  simp only [morrisEntry]

theorem flatten_getD {α : Type} (L : List (List α)) (m : Nat)
    (hm : ∀ l ∈ L, l.length = m) (k i : Nat) (hk : k < L.length) (hi : i < m) (d : α) :
    L.flatten.getD (k * m + i) d = (L.getD k []).getD i d := by
  induction L generalizing k with
  | nil => simp at hk
  | cons l L ih =>
    have hl : l.length = m := hm l (List.mem_cons_self l L)
    cases k with
    | zero =>
      rw [List.flatten_cons, List.getD_eq_getElem?_getD, List.getD_eq_getElem?_getD]
      have hil : i < l.length := by omega
      simp [List.getElem?_append, hil]
    | succ k =>
      have hkL : k < L.length := by simpa using hk
      have harith : (k + 1) * m + i = l.length + (k * m + i) := by
        rw [hl]; ring
      rw [List.flatten_cons, List.getD_eq_getElem?_getD, harith]
      have hge : ¬ (l.length + (k * m + i) < l.length) := by omega
      simp only [List.getElem?_append, hge, if_false, Nat.add_sub_cancel_left]
      rw [← List.getD_eq_getElem?_getD, ih (fun t ht => hm t (List.mem_cons_of_mem l ht)) k hkL]
      simp

theorem morrisSample_length (st : MorrisExperiment) (rng : RandomStream) :
    (st.morrisSample rng).length = st.N_ * (st.step_.length + 1) := by
  simp [morrisSample, List.length_flatten, Function.comp_def, List.map_map]

theorem morrisPoint_length (st : MorrisExperiment) (rng : RandomStream) (k i : Nat) :
    (st.morrisPoint rng k i).length = st.step_.length := by
  simp [morrisPoint]

theorem morrisSample_row_length (st : MorrisExperiment) (rng : RandomStream) :
    ∀ row ∈ st.morrisSample rng, row.length = st.step_.length := by
  intro row hrow
  simp only [morrisSample, List.mem_flatten, List.mem_map] at hrow
  obtain ⟨traj, ⟨k, _, hk⟩, hmem⟩ := hrow
  subst hk
  obtain ⟨i, _, hi⟩ := List.mem_map.mp hmem
  subst hi
  exact morrisPoint_length st rng k i

theorem morrisSample_getD (st : MorrisExperiment) (rng : RandomStream) (k i : Nat)
    (hk : k < st.N_) (hi : i < st.step_.length + 1) :
    (st.morrisSample rng).getD (k * (st.step_.length + 1) + i) [] =
      st.morrisPoint rng k i := by
  unfold morrisSample
  have hm : ∀ l ∈ (List.range st.N_).map (fun j =>
      (List.range (st.step_.length + 1)).map fun i => st.morrisPoint rng j i),
      l.length = st.step_.length + 1 := by
    intro l hl
    obtain ⟨j, _, hj⟩ := List.mem_map.mp hl
    subst hj
    simp
  have hk2 : k < ((List.range st.N_).map fun j =>
      (List.range (st.step_.length + 1)).map fun i => st.morrisPoint rng j i).length := by
    simpa using hk
  rw [flatten_getD _ (st.step_.length + 1) hm k i hk2 hi]
  rw [getD_range_map _ _ _ _ hk]
  exact getD_range_map _ _ _ _ hi

theorem computeSteps_ok (levels : List Nat) (h : ∀ l ∈ levels, 2 ≤ l) :
    computeSteps levels = .ok (levels.map fun (l : Nat) => 1 / ((l : ℚ) - 1)) := by
  induction levels with
  | nil => rfl
  | cons l ls ih =>
    have h2 : ¬ l ≤ 1 := by have := h l (List.mem_cons_self l ls); omega
    simp only [computeSteps, h2, if_false, List.map_cons]
    rw [ih fun x hx => h x (List.mem_cons_of_mem l hx)]

theorem computeSteps_error (levels : List Nat) (h : ∃ l ∈ levels, l ≤ 1) :
    computeSteps levels = .error .invalidConfiguration := by
  induction levels with
  | nil => simp at h
  | cons l ls ih =>
    by_cases hl : l ≤ 1
    · simp [computeSteps, hl]
    · obtain ⟨x, hx, hx1⟩ := h
      rcases List.mem_cons.mp hx with rfl | hmem
      · omega
      · simp only [computeSteps, hl, if_false]
        rw [ih ⟨x, hmem, hx1⟩]

theorem computeSteps_cases (levels : List Nat) :
    (∃ l ∈ levels, l ≤ 1) ∨ (∀ l ∈ levels, 2 ≤ l) := by
  by_cases h : ∃ l ∈ levels, l ≤ 1
  · exact Or.inl h
  · right
    intro l hl
    push_neg at h
    have := h l hl
    omega

theorem computeSteps_error_iff (levels : List Nat) :
    computeSteps levels = .error .invalidConfiguration ↔ ∃ l ∈ levels, l ≤ 1 := by
  constructor
  · intro h
    rcases computeSteps_cases levels with hbad | hgood
    · exact hbad
    · rw [computeSteps_ok levels hgood] at h
      cases h
  · exact computeSteps_error levels

theorem fromLevels_ok (levels : List Nat) (N : Nat) (st : MorrisExperiment)
    (h : fromLevels levels N = .ok st) :
    (∀ l ∈ levels, 2 ≤ l) ∧
      st = ⟨IntervalQ.unit levels.length, [],
        levels.map fun (l : Nat) => 1 / ((l : ℚ) - 1), N⟩ := by
  rcases computeSteps_cases levels with hbad | hgood
  · rw [fromLevels, computeSteps_error levels hbad] at h
    cases h
  · rw [fromLevels, computeSteps_ok levels hgood] at h
    exact ⟨hgood, (Except.ok.inj h).symm⟩

theorem fromLevelsInterval_ok (levels : List Nat) (I : IntervalQ) (N : Nat)
    (st : MorrisExperiment) (h : fromLevelsInterval levels I N = .ok st) :
    levels.length = I.dimension ∧ (∀ l ∈ levels, 2 ≤ l) ∧
      st = ⟨I, [], levels.map fun (l : Nat) => 1 / ((l : ℚ) - 1), N⟩ := by
  by_cases hdim : levels.length = I.dimension
  · rcases computeSteps_cases levels with hbad | hgood
    · rw [fromLevelsInterval, if_neg (by omega), computeSteps_error levels hbad] at h
      cases h
    · rw [fromLevelsInterval, if_neg (by omega), computeSteps_ok levels hgood] at h
      exact ⟨hdim, hgood, (Except.ok.inj h).symm⟩
  · rw [fromLevelsInterval, if_pos hdim] at h
    cases h

theorem fromLHS_ok (s : List (List ℚ)) (N : Nat) (st : MorrisExperiment)
    (h : fromLHS s N = .ok st) :
    designOutOfUnitCube s = false ∧
      st = ⟨IntervalQ.unit (sampleDim s), s,
        List.replicate (sampleDim s) ((1 / 2 : ℚ) / (s.length : ℚ)), N⟩ := by
  by_cases hrange : designOutOfUnitCube s
  · rw [fromLHS, if_pos hrange] at h
    cases h
  · rw [fromLHS, if_neg hrange] at h
    exact ⟨Bool.eq_false_iff.mpr hrange, (Except.ok.inj h).symm⟩

theorem fromLHSInterval_ok (s : List (List ℚ)) (I : IntervalQ) (N : Nat)
    (st : MorrisExperiment) (h : fromLHSInterval s I N = .ok st) :
    sampleDim s = I.dimension ∧
      st = ⟨I, s.map (renormalizePoint I),
        List.replicate (sampleDim s) ((1 / 2 : ℚ) / (s.length : ℚ)), N⟩ := by
  by_cases hdim : sampleDim s = I.dimension
  · rw [fromLHSInterval, if_neg (by omega)] at h
    exact ⟨hdim, (Except.ok.inj h).symm⟩
  · rw [fromLHSInterval, if_pos hdim] at h
    cases h

theorem getD_replicate {β : Type} (n : Nat) (a d : β) (p : Nat) :
    (List.replicate n a).getD p d = if p < n then a else d := by
  rw [List.getD_eq_getElem?_getD]
  by_cases hp : p < n
  · simp [List.getElem?_replicate, hp]
  · simp [List.getElem?_replicate, hp]

/-- Every constructed state has a nonnegative step vector. -/
theorem constructed_step_nonneg (st : MorrisExperiment) (hst : Constructed st) :
    ∀ p, 0 ≤ st.step_.getD p 0 := by
  have hlevels : ∀ (levels : List Nat), (∀ l ∈ levels, 2 ≤ l) → ∀ p,
      (0 : ℚ) ≤ (levels.map fun (l : Nat) => 1 / ((l : ℚ) - 1)).getD p 0 := by
    intro levels hgood p
    by_cases hp : p < levels.length
    · have hmem := getD_mem (levels.map fun (l : Nat) => 1 / ((l : ℚ) - 1)) p (by simpa using hp) 0
      obtain ⟨l, hl, hval⟩ := List.mem_map.mp hmem
      rw [← hval]
      have h2 : (2 : ℚ) ≤ (l : ℚ) := by exact_mod_cast hgood l hl
      have h1 : (0 : ℚ) < (l : ℚ) - 1 := by linarith
      exact le_of_lt (one_div_pos.mpr h1)
    · rw [List.getD_eq_default]
      simpa using Nat.le_of_not_lt hp
  have hpool : ∀ (n : Nat) (len : Nat) (p : Nat),
      (0 : ℚ) ≤ (List.replicate n ((1 / 2 : ℚ) / (len : ℚ))).getD p 0 := by
    intro n len p
    rw [getD_replicate]
    split
    · positivity
    · simp
  rcases hst with ⟨levels, N, h⟩ | ⟨levels, I, N, h⟩ | ⟨s, N, h⟩ | ⟨s, I, N, h⟩
  · obtain ⟨hgood, rfl⟩ := fromLevels_ok levels N st h
    exact hlevels levels hgood
  · obtain ⟨_, hgood, rfl⟩ := fromLevelsInterval_ok levels I N st h
    exact hlevels levels hgood
  · obtain ⟨_, rfl⟩ := fromLHS_ok s N st h
    exact hpool _ _
  · obtain ⟨_, rfl⟩ := fromLHSInterval_ok s I N st h
    exact hpool _ _

/-- Every constructed state has its interval dimension equal to its
step-vector length (the generator's dimension). -/
theorem constructed_dim_eq (st : MorrisExperiment) (hst : Constructed st) :
    st.interval_.dimension = st.step_.length := by
  rcases hst with ⟨levels, N, h⟩ | ⟨levels, I, N, h⟩ | ⟨s, N, h⟩ | ⟨s, I, N, h⟩
  · obtain ⟨_, rfl⟩ := fromLevels_ok levels N st h
    simp [IntervalQ.unit, IntervalQ.dimension]
  · obtain ⟨hdim, _, rfl⟩ := fromLevelsInterval_ok levels I N st h
    simp [← hdim]
  · obtain ⟨_, rfl⟩ := fromLHS_ok s N st h
    simp [IntervalQ.unit, IntervalQ.dimension]
  · obtain ⟨hdim, rfl⟩ := fromLHSInterval_ok s I N st h
    simp [← hdim]

/-- The state built by `MorrisExperiment([3, 3], 1)`: two dimensions with
three levels each, one trajectory, unit-square domain. -/
def stEx33 : MorrisExperiment :=
  ⟨IntervalQ.unit 2, [], [1 / 2, 1 / 2], 1⟩

/-- A concrete realization of the external random source: empty
permutation draws, all directions `+1`, all integer seeds `0`. -/
def rngZero : RandomStream :=
  ⟨fun _ => [], fun _ _ => true, fun _ _ => 0⟩

theorem fromLevels_33 : fromLevels [3, 3] 1 = .ok stEx33 := by
  norm_num [fromLevels, computeSteps, stEx33, IntervalQ.unit, List.replicate]

theorem constructed_stEx33 : Constructed stEx33 :=
  Or.inl ⟨[3, 3], 1, fromLevels_33⟩

theorem getD_map_lt {α β : Type} (f : α → β) (l : List α) (p : Nat)
    (hp : p < l.length) (d : β) (e : α) :
    (l.map f).getD p d = f (l.getD p e) := by
  rw [List.getD_eq_getElem?_getD, List.getD_eq_getElem?_getD, List.getElem?_map,
    List.getElem?_eq_getElem hp]
  simp

/-- For a levels-derived step `1/(L-1)` with `L >= 2`, the truncated
level count `1 + 1/step` recovers `L` exactly. -/
theorem levelOf_levels (L : Nat) (h : 2 ≤ L) : levelOf (1 / ((L : ℚ) - 1)) = L := by
  unfold levelOf
  rw [one_div_one_div]
  have h1 : (1 : ℚ) + ((L : ℚ) - 1) = (L : ℚ) := by ring
  rw [h1, Int.floor_natCast]
  simp

/-- Every row of the generated sample is a trajectory point. -/
theorem morrisSample_mem (st : MorrisExperiment) (rng : RandomStream) (row : List ℚ)
    (h : row ∈ st.morrisSample rng) : ∃ k i, row = st.morrisPoint rng k i := by
  simp only [morrisSample, List.mem_flatten, List.mem_map] at h
  obtain ⟨traj, ⟨k, _, hk⟩, hmem⟩ := h
  subst hk
  obtain ⟨i, _, hi⟩ := List.mem_map.mp hmem
  exact ⟨k, i, hi.symm⟩

theorem morrisPoint_getD (st : MorrisExperiment) (rng : RandomStream) (k i p : Nat)
    (hp : p < st.step_.length) :
    (st.morrisPoint rng k i).getD p 0 =
      morrisEntry st (st.xBaseOf rng k) (rng.dirs k) i p := by
  unfold morrisPoint
  exact getD_range_map _ _ _ _ hp

/-- In every constructed state with an empty pool and a nonzero
dimension, the step at each dimension came from a level count `L >= 2`. -/
theorem constructed_grid_step (st : MorrisExperiment) (hst : Constructed st)
    (hemp : st.experiment_.length = 0) (p : Nat) (hp : p < st.step_.length) :
    ∃ L : Nat, 2 ≤ L ∧ st.step_.getD p 0 = 1 / ((L : ℚ) - 1) := by
  rcases hst with ⟨levels, N, h⟩ | ⟨levels, I, N, h⟩ | ⟨s, N, h⟩ | ⟨s, I, N, h⟩
  · obtain ⟨hgood, rfl⟩ := fromLevels_ok levels N st h
    simp only [List.length_map] at hp
    refine ⟨levels.getD p 0, hgood _ (getD_mem levels p hp 0), ?_⟩
    exact getD_map_lt _ levels p hp 0 0
  · obtain ⟨_, hgood, rfl⟩ := fromLevelsInterval_ok levels I N st h
    simp only [List.length_map] at hp
    refine ⟨levels.getD p 0, hgood _ (getD_mem levels p hp 0), ?_⟩
    exact getD_map_lt _ levels p hp 0 0
  · obtain ⟨_, rfl⟩ := fromLHS_ok s N st h
    have hs : s = [] := List.length_eq_zero.mp hemp
    subst hs
    simp [sampleDim] at hp
  · obtain ⟨_, rfl⟩ := fromLHSInterval_ok s I N st h
    have hs : s = [] := by
      have := List.length_eq_zero.mp (by simpa using hemp)
      simpa [List.map_eq_nil_iff] using this
    subst hs
    simp [sampleDim] at hp

/-- A grid-mode base coordinate for a levels-derived step lies in
`[0, 1 - step]`. -/
theorem grid_base_range (st : MorrisExperiment) (L : Nat) (hL : 2 ≤ L)
    (p : Nat) (hp : p < st.interval_.dimension)
    (hstep : st.step_.getD p 0 = 1 / ((L : ℚ) - 1)) (rs : Nat → Nat) :
    0 ≤ (st.generateXBaseFromGrid rs).getD p 0 ∧
      (st.generateXBaseFromGrid rs).getD p 0 + st.step_.getD p 0 ≤ 1 := by
  unfold generateXBaseFromGrid IntegerGenerate
  rw [getD_range_map _ _ _ _ hp, hstep, levelOf_levels L hL]
  have hj : rs p % (L - 1) < L - 1 := Nat.mod_lt _ (by omega)
  have hL1 : (0 : ℚ) < (L : ℚ) - 1 := by
    have h2 : (2 : ℚ) ≤ (L : ℚ) := by exact_mod_cast hL
    linarith
  constructor
  · positivity
  · have hjq : ((rs p % (L - 1) : Nat) : ℚ) + 1 ≤ (L : ℚ) - 1 := by
      have hle : ((rs p % (L - 1) : Nat) : ℚ) + 1 ≤ ((L - 1 : Nat) : ℚ) := by
        exact_mod_cast hj
      rwa [Nat.cast_sub (by omega), Nat.cast_one] at hle
    have hdiv : (((rs p % (L - 1) : Nat) : ℚ) + 1) / ((L : ℚ) - 1) ≤
        ((L : ℚ) - 1) / ((L : ℚ) - 1) := (div_le_div_right hL1).mpr hjq
    calc 1 / ((L : ℚ) - 1) * ((rs p % (L - 1) : Nat) : ℚ) + 1 / ((L : ℚ) - 1)
        = (((rs p % (L - 1) : Nat) : ℚ) + 1) / ((L : ℚ) - 1) := by ring
      _ ≤ ((L : ℚ) - 1) / ((L : ℚ) - 1) := hdiv
      _ = 1 := div_self (ne_of_gt hL1)

/-- For every constructed state whose stored pool points satisfy the
unit-cube margin condition, the drawn base point of any trajectory
satisfies `0 <= xBase_p` and `xBase_p + step_p <= 1`. -/
theorem constructed_xBase_range (st : MorrisExperiment) (hst : Constructed st)
    (hpool : ∀ pt ∈ st.experiment_, ∀ p, p < st.step_.length →
      0 ≤ pt.getD p 0 ∧ pt.getD p 0 + st.step_.getD p 0 ≤ 1)
    (rng : RandomStream) (k p : Nat) (hp : p < st.step_.length) :
    0 ≤ (st.xBaseOf rng k).getD p 0 ∧
      (st.xBaseOf rng k).getD p 0 + st.step_.getD p 0 ≤ 1 := by
  unfold xBaseOf
  by_cases hne : st.experiment_.length > 0
  · rw [if_pos hne]
    unfold generateXBaseFromLHS IntegerGenerate
    exact hpool _ (getD_mem _ _ (Nat.mod_lt _ hne) []) p hp
  · rw [if_neg hne]
    obtain ⟨L, hL, hstep⟩ := constructed_grid_step st hst (by omega) p hp
    exact grid_base_range st L hL p (by rw [constructed_dim_eq st hst]; exact hp) hstep _

/-- Consecutive trajectory rows agree at every coordinate other than the
walk-step index. -/
theorem morrisEntry_succ_eq (st : MorrisExperiment) (xB : List ℚ) (dir : Nat → Bool)
    (i p : Nat) (hne : p ≠ i) :
    morrisEntry st xB dir (i + 1) p = morrisEntry st xB dir i p := by
  unfold morrisEntry
  rcases Nat.lt_or_ge p i with hlt | hge
  · rw [if_neg (by omega), if_neg (by omega)]
  · rw [if_pos (by omega), if_pos (by omega)]

/-- The signed difference of consecutive trajectory rows at the walk-step
coordinate. -/
theorem morrisEntry_succ_diff (st : MorrisExperiment) (xB : List ℚ) (dir : Nat → Bool)
    (i : Nat) :
    morrisEntry st xB dir (i + 1) i - morrisEntry st xB dir i i =
      st.interval_.deltaAt i * st.step_.getD i 0 * directionValue (dir i) := by
  unfold morrisEntry
  rw [if_pos (le_refl i), if_neg (by omega)]
  ring

/-- In-range bound for a single generated entry, given a base coordinate
in `[0, 1 - step]` and a nonnegative step. -/
theorem morrisEntry_bound (st : MorrisExperiment) (xB : List ℚ) (dir : Nat → Bool)
    (i p : Nat) (hlb : st.interval_.lbAt p ≤ st.interval_.ubAt p)
    (hstep : 0 ≤ st.step_.getD p 0)
    (hx0 : 0 ≤ xB.getD p 0) (hx1 : xB.getD p 0 + st.step_.getD p 0 ≤ 1) :
    st.interval_.lbAt p ≤ morrisEntry st xB dir i p ∧
      morrisEntry st xB dir i p ≤ st.interval_.ubAt p := by
  unfold morrisEntry directionValue IntervalQ.deltaAt
  have hc : ((if i ≤ p then (-1 : ℚ) else 1) * (if dir p then (1 : ℚ) else -1) + 1) *
      (1 / 2) = 0 ∨
      ((if i ≤ p then (-1 : ℚ) else 1) * (if dir p then (1 : ℚ) else -1) + 1) *
      (1 / 2) = 1 := by
    split <;> split <;> norm_num
  have hdelta : 0 ≤ st.interval_.ubAt p - st.interval_.lbAt p := sub_nonneg.mpr hlb
  rcases hc with hc0 | hc1
  · rw [hc0]
    constructor
    · nlinarith
    · nlinarith
  · rw [hc1]
    constructor
    · nlinarith
    · nlinarith

/-- A concrete random stream whose permutation draw is `[1, 0]` (with
directions `+1` and integer seeds `0`), used to exhibit that the drawn
permutation does not influence the walk. -/
def rngPerm : RandomStream :=
  ⟨fun _ => [1, 0], fun _ _ => true, fun _ _ => 0⟩

/-- The pool-only range check fires exactly when some coordinate of some
pool point lies outside `[0, 1]` (for a dimensionally uniform sample, as
OT guarantees for `NumericalSample`). -/
theorem designOutOfUnitCube_iff (s : List (List ℚ))
    (hu : ∀ pt ∈ s, pt.length = sampleDim s) :
    designOutOfUnitCube s = true ↔ ∃ pt ∈ s, ∃ x ∈ pt, x < 0 ∨ 1 < x := by
  unfold designOutOfUnitCube
  rw [List.any_eq_true]
  constructor
  · rintro ⟨k, hk, hor⟩
    rw [Bool.or_eq_true, List.any_eq_true, List.any_eq_true] at hor
    rcases hor with ⟨pt, hpt, hx⟩ | ⟨pt, hpt, hx⟩ <;>
      rw [decide_eq_true_iff] at hx <;>
      [exact ⟨pt, hpt, pt.getD k 0,
        getD_mem pt k (by rw [hu pt hpt]; exact List.mem_range.mp hk) 0, Or.inl hx⟩;
      exact ⟨pt, hpt, pt.getD k 0,
        getD_mem pt k (by rw [hu pt hpt]; exact List.mem_range.mp hk) 0, Or.inr hx⟩]
  · rintro ⟨pt, hpt, x, hx, hor⟩
    obtain ⟨k, hklen, hkx⟩ := List.mem_iff_getElem.mp hx
    refine ⟨k, List.mem_range.mpr (by rw [← hu pt hpt]; exact hklen), ?_⟩
    have hgd : pt.getD k 0 = x := by
      rw [List.getD_eq_getElem?_getD, List.getElem?_eq_getElem hklen]
      simpa using hkx
    rw [Bool.or_eq_true, List.any_eq_true, List.any_eq_true]
    rcases hor with h | h
    · exact Or.inl ⟨pt, hpt, decide_eq_true (by rw [hgd]; exact h)⟩
    · exact Or.inr ⟨pt, hpt, decide_eq_true (by rw [hgd]; exact h)⟩

end MorrisExperiment

open MorrisExperiment

/-- C1: for every successfully constructed generator with dimension
`d = step_.length` and trajectory count `N = N_`, `generate()` returns a
sample of exactly `N * (d + 1)` points, each of dimension `d`, and the
point at flat index `k * (d + 1) + i` is the `i`-th walk point of the
`k`-th trajectory, so points are grouped by trajectory in generation
order and ordered within a trajectory in walk order. -/
theorem claim_C1_generate_shape (st : MorrisExperiment) (hst : Constructed st)
    (rng : RandomStream) :
    ∃ out, st.generate rng = .ok out ∧
      out.length = st.N_ * (st.step_.length + 1) ∧
      (∀ row ∈ out, row.length = st.step_.length) ∧
      (∀ k i, k < st.N_ → i < st.step_.length + 1 →
        out.getD (k * (st.step_.length + 1) + i) [] = st.morrisPoint rng k i) :=
  ⟨st.morrisSample rng, generate_eq st rng, morrisSample_length st rng,
    morrisSample_row_length st rng, fun k i hk hi => morrisSample_getD st rng k i hk hi⟩

theorem claim_C1_witness :
    ∃ out, stEx33.generate rngZero = .ok out ∧
      out.length = stEx33.N_ * (stEx33.step_.length + 1) ∧
      (∀ row ∈ out, row.length = stEx33.step_.length) ∧
      (∀ k i, k < stEx33.N_ → i < stEx33.step_.length + 1 →
        out.getD (k * (stEx33.step_.length + 1) + i) [] = stEx33.morrisPoint rngZero k i) :=
  claim_C1_generate_shape stEx33 (Or.inl ⟨[3, 3], 1, by
    norm_num [fromLevels, computeSteps, stEx33, IntervalQ.unit, List.replicate]⟩) rngZero

/-- C8: for every generator whose construction succeeded, `generate()`
never raises an error: it returns a sample for every realization of the
random source, and no error value is reachable. -/
theorem claim_C8_generate_never_fails (st : MorrisExperiment) (hst : Constructed st)
    (rng : RandomStream) :
    (∃ out, st.generate rng = .ok out) ∧ ∀ e, st.generate rng ≠ .error e :=
  ⟨⟨st.morrisSample rng, generate_eq st rng⟩, fun e h => by
    rw [generate_eq] at h
    cases h⟩

theorem claim_C8_witness :
    (∃ out, stEx33.generate rngZero = .ok out) ∧
      ∀ e, stEx33.generate rngZero ≠ .error e :=
  claim_C8_generate_never_fails stEx33 (Or.inl ⟨[3, 3], 1, by
    norm_num [fromLevels, computeSteps, stEx33, IntervalQ.unit, List.replicate]⟩) rngZero

/-- C5 counterexample: with `levels = [1]` and a two-dimensional domain,
some entry `levels[k] <= 1` holds, yet the levels-plus-domain constructor
fails with `DimensionMismatch` rather than `InvalidConfiguration`
because the dimension check runs first, so the claimed equivalence is
false as stated. -/
theorem claim_C5_counterexample :
    ¬ ((fromLevelsInterval [1] (IntervalQ.unit 2) 5 = .error .invalidConfiguration) ↔
      ∃ l ∈ [1], l ≤ 1) := by
  intro h
  have h2 := h.mpr ⟨1, List.mem_singleton.mpr rfl, le_refl 1⟩
  rw [fromLevelsInterval, if_pos (by simp [IntervalQ.unit, IntervalQ.dimension])] at h2
  cases h2

/-- C5 (amended): the levels-only constructor fails with
`InvalidConfiguration` iff some `levels[k] <= 1`; the levels-plus-domain
constructor does so iff some `levels[k] <= 1`, provided its dimension
check passes (on a dimension mismatch it fails with `DimensionMismatch`
before looking at the levels); on success either constructor stores
`step[k] = 1 / (levels[k] - 1)` for every `k`. -/
theorem claim_C5_amended (levels : List Nat) (I : IntervalQ) (N : Nat) :
    ((fromLevels levels N = .error .invalidConfiguration) ↔ ∃ l ∈ levels, l ≤ 1) ∧
    (levels.length = I.dimension →
      ((fromLevelsInterval levels I N = .error .invalidConfiguration) ↔
        ∃ l ∈ levels, l ≤ 1)) ∧
    (∀ st, fromLevels levels N = .ok st →
      st.step_ = levels.map fun (l : Nat) => 1 / ((l : ℚ) - 1)) ∧
    (∀ st, fromLevelsInterval levels I N = .ok st →
      st.step_ = levels.map fun (l : Nat) => 1 / ((l : ℚ) - 1)) := by
  refine ⟨?_, ?_, ?_, ?_⟩
  · rcases computeSteps_cases levels with hbad | hgood
    · rw [fromLevels, computeSteps_error levels hbad]
      simp [hbad]
    · rw [fromLevels, computeSteps_ok levels hgood]
      constructor
      · intro h; cases h
      · rintro ⟨l, hl, h1⟩
        have := hgood l hl
        omega
  · intro hdim
    rcases computeSteps_cases levels with hbad | hgood
    · rw [fromLevelsInterval, if_neg (by omega), computeSteps_error levels hbad]
      simp [hbad]
    · rw [fromLevelsInterval, if_neg (by omega), computeSteps_ok levels hgood]
      constructor
      · intro h; cases h
      · rintro ⟨l, hl, h1⟩
        have := hgood l hl
        omega
  · intro st h
    obtain ⟨_, rfl⟩ := fromLevels_ok levels N st h
    rfl
  · intro st h
    obtain ⟨_, _, rfl⟩ := fromLevelsInterval_ok levels I N st h
    rfl

theorem claim_C5_witness :
    ((fromLevels [3, 3] 1 = .error .invalidConfiguration) ↔ ∃ l ∈ [3, 3], l ≤ 1) ∧
    (([3, 3] : List Nat).length = (IntervalQ.unit 2).dimension →
      ((fromLevelsInterval [3, 3] (IntervalQ.unit 2) 1 = .error .invalidConfiguration) ↔
        ∃ l ∈ [3, 3], l ≤ 1)) ∧
    (∀ st, fromLevels [3, 3] 1 = .ok st →
      st.step_ = [3, 3].map fun (l : Nat) => 1 / ((l : ℚ) - 1)) ∧
    (∀ st, fromLevelsInterval [3, 3] (IntervalQ.unit 2) 1 = .ok st →
      st.step_ = [3, 3].map fun (l : Nat) => 1 / ((l : ℚ) - 1)) :=
  claim_C5_amended [3, 3] (IntervalQ.unit 2) 1

/-- C6: the pool-only constructor fails with `OutOfRangeInput` exactly
when some coordinate of some pool point lies outside `[0, 1]` (for a
dimensionally uniform pool, as `NumericalSample` guarantees); on success
the pool is stored unchanged. -/
theorem claim_C6_pool_range_check (s : List (List ℚ)) (N : Nat)
    (hu : ∀ pt ∈ s, pt.length = sampleDim s) :
    ((fromLHS s N = .error .outOfRangeInput) ↔ ∃ pt ∈ s, ∃ x ∈ pt, x < 0 ∨ 1 < x) ∧
    (∀ st, fromLHS s N = .ok st → st.experiment_ = s) := by
  constructor
  · rw [← designOutOfUnitCube_iff s hu]
    by_cases hr : designOutOfUnitCube s
    · rw [fromLHS, if_pos hr]
      simp [hr]
    · rw [fromLHS, if_neg hr]
      constructor
      · intro h; cases h
      · intro h; exact absurd h hr
  · intro st h
    obtain ⟨_, rfl⟩ := fromLHS_ok s N st h
    rfl

theorem claim_C6_witness :
    ((fromLHS [[3 / 2]] 1 = .error .outOfRangeInput) ↔
      ∃ pt ∈ [[(3 : ℚ) / 2]], ∃ x ∈ pt, x < 0 ∨ 1 < x) ∧
    (∀ st, fromLHS [[3 / 2]] 1 = .ok st → st.experiment_ = [[3 / 2]]) :=
  claim_C6_pool_range_check [[3 / 2]] 1 (by
    intro pt hpt
    simp only [List.mem_singleton] at hpt
    subst hpt
    rfl)

/-- C7: after its dimension check, the pool-plus-domain constructor
stores the pool renormalized coordinate-wise as
`(pool - lowerBound) / (upperBound - lowerBound)`, and every later
base-point draw returns a stored point unchanged (the point at the drawn
index, with no further transform). -/
theorem claim_C7_renormalized_pool (s : List (List ℚ)) (I : IntervalQ) (N : Nat)
    (hdim : sampleDim s = I.dimension) :
    ∃ st, fromLHSInterval s I N = .ok st ∧
      st.experiment_ = s.map (fun pt => (List.range I.dimension).map fun k =>
        (pt.getD k 0 - I.lbAt k) / (I.ubAt k - I.lbAt k)) ∧
      (∀ r, st.generateXBaseFromLHS r =
        st.experiment_.getD (r % st.experiment_.length) []) := by
  refine ⟨⟨I, s.map (renormalizePoint I),
    List.replicate (sampleDim s) ((1 / 2 : ℚ) / (s.length : ℚ)), N⟩, ?_, ?_, ?_⟩
  · rw [fromLHSInterval, if_neg (by omega)]
  · simp [renormalizePoint, IntervalQ.deltaAt]
  · intro r
    rfl

theorem claim_C7_witness :
    ∃ st, fromLHSInterval [[1 / 2]] (IntervalQ.unit 1) 1 = .ok st ∧
      st.experiment_ = [[(1 : ℚ) / 2]].map (fun pt =>
        (List.range (IntervalQ.unit 1).dimension).map fun k =>
          (pt.getD k 0 - (IntervalQ.unit 1).lbAt k) /
            ((IntervalQ.unit 1).ubAt k - (IntervalQ.unit 1).lbAt k)) ∧
      (∀ r, st.generateXBaseFromLHS r =
        st.experiment_.getD (r % st.experiment_.length) []) :=
  claim_C7_renormalized_pool [[1 / 2]] (IntervalQ.unit 1) 1 (by
    norm_num [sampleDim, IntervalQ.unit, IntervalQ.dimension])

/-- C10: the pool-plus-domain constructor accepts every pool whose
dimension matches the domain's dimension, with no range check and no
reachable range error; in particular the out-of-unit-cube pool `[[3/2]]`
with the unit domain is accepted, and the stored renormalized pool then
contains the coordinate `3/2`, outside the unit cube. -/
theorem claim_C10_no_range_check (s : List (List ℚ)) (I : IntervalQ) (N : Nat)
    (hdim : sampleDim s = I.dimension) :
    (∃ st, fromLHSInterval s I N = .ok st) ∧
    (∀ e, fromLHSInterval s I N ≠ .error e) ∧
    (∃ st, fromLHSInterval [[3 / 2]] (IntervalQ.unit 1) 1 = .ok st ∧
      ∃ pt ∈ st.experiment_, ∃ x ∈ pt, x < 0 ∨ 1 < x) := by
  have hok : fromLHSInterval s I N = .ok ⟨I, s.map (renormalizePoint I),
      List.replicate (sampleDim s) ((1 / 2 : ℚ) / (s.length : ℚ)), N⟩ := by
    rw [fromLHSInterval, if_neg (by omega)]
  refine ⟨⟨_, hok⟩, ?_, ?_⟩
  · intro e h
    rw [hok] at h
    cases h
  refine ⟨⟨IntervalQ.unit 1, [[3 / 2]].map (renormalizePoint (IntervalQ.unit 1)),
    List.replicate 1 ((1 / 2 : ℚ) / 1), 1⟩, ?_, ?_⟩
  · norm_num [fromLHSInterval, sampleDim, IntervalQ.unit, IntervalQ.dimension]
  · refine ⟨renormalizePoint (IntervalQ.unit 1) [3 / 2], by simp, 3 / 2, ?_, by norm_num⟩
    norm_num [renormalizePoint, IntervalQ.unit, IntervalQ.dimension, IntervalQ.lbAt,
      IntervalQ.ubAt, IntervalQ.deltaAt, List.range_succ]

/-- C9: in grid mode (the levels-based constructions, where no pool is
supplied), each base-point coordinate for dimension `p` is produced as
`j * step_p`, where `level_p = floor(1 + 1/step_p)` and `j` is the
uniform integer draw reduced into `[0, level_p - 1)`; in particular the
base coordinate stays strictly below `(level_p - 1) * step_p`, so the
highest grid level is never selected. -/
theorem claim_C9_grid_base (st : MorrisExperiment) (levels : List Nat)
    (I : IntervalQ) (N : Nat)
    (hst : fromLevels levels N = .ok st ∨ fromLevelsInterval levels I N = .ok st)
    (rs : Nat → Nat) (p : Nat) (hp : p < st.step_.length) :
    (st.generateXBaseFromGrid rs).getD p 0 =
      st.step_.getD p 0 * ((rs p % (levelOf (st.step_.getD p 0) - 1) : Nat) : ℚ) ∧
    rs p % (levelOf (st.step_.getD p 0) - 1) < levelOf (st.step_.getD p 0) - 1 ∧
    (st.generateXBaseFromGrid rs).getD p 0 <
      st.step_.getD p 0 * ((levelOf (st.step_.getD p 0) - 1 : Nat) : ℚ) := by
  have hC : Constructed st :=
    hst.elim (fun h => Or.inl ⟨levels, N, h⟩) fun h => Or.inr (Or.inl ⟨levels, I, N, h⟩)
  have hemp : st.experiment_.length = 0 := by
    rcases hst with h | h
    · obtain ⟨_, rfl⟩ := fromLevels_ok _ _ _ h
      rfl
    · obtain ⟨_, _, rfl⟩ := fromLevelsInterval_ok _ _ _ _ h
      rfl
  obtain ⟨L, hL, hstep⟩ := constructed_grid_step st hC hemp p hp
  have hdim : p < st.interval_.dimension := by
    rw [constructed_dim_eq st hC]
    exact hp
  have hfirst : (st.generateXBaseFromGrid rs).getD p 0 =
      st.step_.getD p 0 * ((rs p % (levelOf (st.step_.getD p 0) - 1) : Nat) : ℚ) := by
    unfold generateXBaseFromGrid IntegerGenerate
    rw [getD_range_map _ _ _ _ hdim]
  have hlev : levelOf (st.step_.getD p 0) = L := by
    rw [hstep]
    exact levelOf_levels L hL
  have hL1 : (0 : ℚ) < (L : ℚ) - 1 := by
    have h2 : (2 : ℚ) ≤ (L : ℚ) := by exact_mod_cast hL
    linarith
  refine ⟨hfirst, ?_, ?_⟩
  · rw [hlev]
    exact Nat.mod_lt _ (by omega)
  · rw [hfirst, hlev, hstep]
    have hj : rs p % (L - 1) < L - 1 := Nat.mod_lt _ (by omega)
    have hjq : ((rs p % (L - 1) : Nat) : ℚ) < ((L - 1 : Nat) : ℚ) := by exact_mod_cast hj
    exact mul_lt_mul_of_pos_left hjq (by positivity)

theorem claim_C9_witness :
    (stEx33.generateXBaseFromGrid (fun _ => 0)).getD 0 0 =
      stEx33.step_.getD 0 0 * ((0 % (levelOf (stEx33.step_.getD 0 0) - 1) : Nat) : ℚ) ∧
    0 % (levelOf (stEx33.step_.getD 0 0) - 1) < levelOf (stEx33.step_.getD 0 0) - 1 ∧
    (stEx33.generateXBaseFromGrid (fun _ => 0)).getD 0 0 <
      stEx33.step_.getD 0 0 * ((levelOf (stEx33.step_.getD 0 0) - 1 : Nat) : ℚ) :=
  claim_C9_grid_base stEx33 [3, 3] (IntervalQ.unit 2) 1 (Or.inl fromLevels_33)
    (fun _ => 0) 0 (by norm_num [stEx33])

/-- C2 counterexample: the levels-plus-domain constructor accepts the
degenerate domain `[0, 0]`; there `delta_0 = 0`, the only trajectory's
two consecutive rows are both `[0]`, and they differ in no coordinate at
all, contradicting "consecutive rows differ in exactly one coordinate". -/
theorem claim_C2_counterexample :
    ∃ st out, fromLevelsInterval [2] ⟨[(0, 0)]⟩ 1 = .ok st ∧
      st.generate rngZero = .ok out ∧
      out.getD 0 [] = out.getD 1 [] ∧ out.length = 2 := by
  refine ⟨⟨⟨[(0, 0)]⟩, [], [1], 1⟩, [[0], [0]], ?_, ?_, rfl, rfl⟩
  · norm_num [fromLevelsInterval, computeSteps, IntervalQ.dimension]
  · norm_num [generate, exceptMap, getOrientationMatrixColumn, xBaseOf,
      generateXBaseFromGrid, IntegerGenerate, levelOf, rngZero, directionValue,
      IntervalQ.dimension, IntervalQ.deltaAt, IntervalQ.lbAt, IntervalQ.ubAt,
      List.range_succ]

/-- C2 (amended): for every constructed generator whose domain is
nondegenerate at every dimension (`lowerBound_p < upperBound_p`) and
whose steps are positive (true of every levels-based construction and of
every nonempty pool), consecutive rows of a trajectory differ in exactly
one coordinate — the walk-step index `i` — and the absolute difference
there equals `delta_i * step_i`. -/
theorem claim_C2_amended (st : MorrisExperiment) (hst : Constructed st)
    (hdelta : ∀ p, p < st.step_.length → st.interval_.lbAt p < st.interval_.ubAt p)
    (hstep : ∀ p, p < st.step_.length → 0 < st.step_.getD p 0)
    (rng : RandomStream) (k i : Nat) (hk : k < st.N_) (hi : i < st.step_.length) :
    ∃ out, st.generate rng = .ok out ∧
      (∀ p, p < st.step_.length → p ≠ i →
        (out.getD (k * (st.step_.length + 1) + i) []).getD p 0 =
          (out.getD (k * (st.step_.length + 1) + (i + 1)) []).getD p 0) ∧
      (out.getD (k * (st.step_.length + 1) + i) []).getD i 0 ≠
        (out.getD (k * (st.step_.length + 1) + (i + 1)) []).getD i 0 ∧
      |(out.getD (k * (st.step_.length + 1) + (i + 1)) []).getD i 0 -
          (out.getD (k * (st.step_.length + 1) + i) []).getD i 0| =
        st.interval_.deltaAt i * st.step_.getD i 0 := by
  have hdpos : 0 < st.interval_.deltaAt i := by
    have := hdelta i hi
    simp only [IntervalQ.deltaAt]
    linarith
  have hprod : 0 < st.interval_.deltaAt i * st.step_.getD i 0 :=
    mul_pos hdpos (hstep i hi)
  refine ⟨st.morrisSample rng, generate_eq st rng, ?_, ?_, ?_⟩
  · rw [morrisSample_getD st rng k i hk (by omega),
      morrisSample_getD st rng k (i + 1) hk (by omega)]
    intro p hp hne
    rw [morrisPoint_getD st rng k i p hp, morrisPoint_getD st rng k (i + 1) p hp]
    exact (morrisEntry_succ_eq st _ _ i p hne).symm
  · rw [morrisSample_getD st rng k i hk (by omega),
      morrisSample_getD st rng k (i + 1) hk (by omega),
      morrisPoint_getD st rng k i i hi, morrisPoint_getD st rng k (i + 1) i hi]
    intro heq
    have hdiff := morrisEntry_succ_diff st (st.xBaseOf rng k) (rng.dirs k) i
    rw [← heq, sub_self] at hdiff
    cases hb : rng.dirs k i <;> rw [hb] at hdiff
    · rw [show directionValue false = -1 from rfl, mul_neg_one] at hdiff
      linarith
    · rw [show directionValue true = 1 from rfl, mul_one] at hdiff
      linarith
  · rw [morrisSample_getD st rng k i hk (by omega),
      morrisSample_getD st rng k (i + 1) hk (by omega),
      morrisPoint_getD st rng k i i hi, morrisPoint_getD st rng k (i + 1) i hi,
      morrisEntry_succ_diff st (st.xBaseOf rng k) (rng.dirs k) i]
    cases hb : rng.dirs k i
    · rw [show directionValue false = -1 from rfl, mul_neg_one, abs_neg, abs_of_pos hprod]
    · rw [show directionValue true = 1 from rfl, mul_one]
      exact abs_of_pos hprod

theorem claim_C2_witness :
    ∃ out, stEx33.generate rngZero = .ok out ∧
      (∀ p, p < stEx33.step_.length → p ≠ 0 →
        (out.getD (0 * (stEx33.step_.length + 1) + 0) []).getD p 0 =
          (out.getD (0 * (stEx33.step_.length + 1) + (0 + 1)) []).getD p 0) ∧
      (out.getD (0 * (stEx33.step_.length + 1) + 0) []).getD 0 0 ≠
        (out.getD (0 * (stEx33.step_.length + 1) + (0 + 1)) []).getD 0 0 ∧
      |(out.getD (0 * (stEx33.step_.length + 1) + (0 + 1)) []).getD 0 0 -
          (out.getD (0 * (stEx33.step_.length + 1) + 0) []).getD 0 0| =
        stEx33.interval_.deltaAt 0 * stEx33.step_.getD 0 0 :=
  claim_C2_amended stEx33 (Or.inl ⟨[3, 3], 1, fromLevels_33⟩)
    (by intro p hp; norm_num [stEx33] at hp; interval_cases p <;>
      norm_num [stEx33, IntervalQ.lbAt, IntervalQ.ubAt, IntervalQ.unit, List.replicate,
        List.getD])
    (by intro p hp; norm_num [stEx33] at hp; interval_cases p <;> norm_num [stEx33])
    rngZero 0 0 (by norm_num [stEx33]) (by norm_num [stEx33])

/-- C3 counterexample: the pool `[[1]]` passes the pool-only range check
(every coordinate lies in `[0, 1]`), construction succeeds with
`step = [1/2]` and the unit domain, yet the generated trajectory contains
the coordinate `3/2`, strictly above `upperBound_0 = 1`. -/
theorem claim_C3_counterexample :
    ∃ st, fromLHS [[1]] 1 = .ok st ∧
      st.generate rngZero = .ok [[1], [3 / 2]] ∧
      st.interval_.lbAt 0 = 0 ∧ st.interval_.ubAt 0 = 1 ∧ ¬ ((3 : ℚ) / 2 ≤ 1) := by
  refine ⟨⟨IntervalQ.unit 1, [[1]], [1 / 2], 1⟩, ?_, ?_, ?_, ?_, by norm_num⟩
  · norm_num [fromLHS, designOutOfUnitCube, sampleDim, IntervalQ.unit, List.replicate,
      List.range_succ]
  · norm_num [generate, exceptMap, getOrientationMatrixColumn, xBaseOf,
      generateXBaseFromLHS, IntegerGenerate, rngZero, directionValue, IntervalQ.unit,
      IntervalQ.dimension, IntervalQ.deltaAt, IntervalQ.lbAt, IntervalQ.ubAt,
      List.range_succ]
  · norm_num [IntervalQ.unit, IntervalQ.lbAt, List.replicate]
  · norm_num [IntervalQ.unit, IntervalQ.ubAt, List.replicate]

/-- C3 (amended): every generated coordinate lies within
`[lowerBound_p, upperBound_p]` provided the domain is ordered
(`lowerBound_p <= upperBound_p`) and every stored pool point keeps the
margin `0 <= pool_p` and `pool_p + step_p <= 1`; the margin condition is
vacuous in the two levels-based (grid) modes, which therefore satisfy
the bound unconditionally, but it can fail in the pool-based modes (a
pool coordinate of `1` already violates it). -/
theorem claim_C3_amended (st : MorrisExperiment) (hst : Constructed st)
    (hI : ∀ p, p < st.step_.length → st.interval_.lbAt p ≤ st.interval_.ubAt p)
    (hpool : ∀ pt ∈ st.experiment_, ∀ p, p < st.step_.length →
      0 ≤ pt.getD p 0 ∧ pt.getD p 0 + st.step_.getD p 0 ≤ 1)
    (rng : RandomStream) :
    ∃ out, st.generate rng = .ok out ∧
      ∀ row ∈ out, ∀ p, p < st.step_.length →
        st.interval_.lbAt p ≤ row.getD p 0 ∧ row.getD p 0 ≤ st.interval_.ubAt p := by
  refine ⟨st.morrisSample rng, generate_eq st rng, ?_⟩
  intro row hrow p hp
  obtain ⟨k, i, rfl⟩ := morrisSample_mem st rng row hrow
  rw [morrisPoint_getD st rng k i p hp]
  obtain ⟨hx0, hx1⟩ := constructed_xBase_range st hst hpool rng k p hp
  exact morrisEntry_bound st _ _ i p (hI p hp) (constructed_step_nonneg st hst p) hx0 hx1

theorem claim_C3_witness :
    ∃ out, stEx33.generate rngZero = .ok out ∧
      ∀ row ∈ out, ∀ p, p < stEx33.step_.length →
        stEx33.interval_.lbAt p ≤ row.getD p 0 ∧
          row.getD p 0 ≤ stEx33.interval_.ubAt p :=
  claim_C3_amended stEx33 (Or.inl ⟨[3, 3], 1, fromLevels_33⟩)
    (by intro p hp; norm_num [stEx33] at hp; interval_cases p <;>
      norm_num [stEx33, IntervalQ.lbAt, IntervalQ.ubAt, IntervalQ.unit, List.replicate,
        List.getD])
    (by intro pt hpt; simp [stEx33] at hpt)
    rngZero

/-- C4: the permutation realization drawn at line 170 of
`MorrisExperiment.cxx` is never read by the generation loop: with levels
`[3, 3]`, one trajectory and drawn permutation `[1, 0]`, the walk still
perturbs coordinate `0` first (trajectory rows 0 and 1 differ in
coordinate 0 and agree in coordinate 1) instead of coordinate
`permutation[0] = 1` as the spec prescribes. -/
theorem claim_C4_permutation_unused :
    ∃ st out, fromLevels [3, 3] 1 = .ok st ∧
      (rngPerm.perms 0).getD 0 0 = 1 ∧
      st.generate rngPerm = .ok out ∧
      (out.getD 0 []).getD 0 0 ≠ (out.getD 1 []).getD 0 0 ∧
      (out.getD 0 []).getD 1 0 = (out.getD 1 []).getD 1 0 := by
  refine ⟨stEx33, [[0, 0], [1 / 2, 0], [1 / 2, 1 / 2]], fromLevels_33, rfl, ?_,
    by norm_num, by norm_num⟩
  norm_num [generate, exceptMap, getOrientationMatrixColumn, xBaseOf,
    generateXBaseFromGrid, IntegerGenerate, levelOf, stEx33, rngPerm, directionValue,
    IntervalQ.unit, IntervalQ.dimension, IntervalQ.deltaAt, IntervalQ.lbAt,
    IntervalQ.ubAt, List.range_succ]

theorem claim_C10_witness :
    (∃ st, fromLHSInterval [[1 / 2]] (IntervalQ.unit 1) 1 = .ok st) ∧
    (∀ e, fromLHSInterval [[1 / 2]] (IntervalQ.unit 1) 1 ≠ .error e) ∧
    (∃ st, fromLHSInterval [[3 / 2]] (IntervalQ.unit 1) 1 = .ok st ∧
      ∃ pt ∈ st.experiment_, ∃ x ∈ pt, x < 0 ∨ 1 < x) :=
  claim_C10_no_range_check [[1 / 2]] (IntervalQ.unit 1) 1 (by
    norm_num [sampleDim, IntervalQ.unit, IntervalQ.dimension])

end OTMorris
